import Mathlib

/-!
Shallow embedding of the `AgentScheduler` class from
`src/scheduler/scheduler.ts` together with the `ScheduledJob` record and
`JobStatus` union from `src/core/types.ts`.

Modelling choices:
* The JS `Map<string, ScheduledJob>` is an insertion-ordered association
  list `List Job`; `Map.get` is `List.find?` on the `id` field, `Map.set`
  replaces the entry in place when the key exists and appends otherwise,
  and `Map.delete` erases the first entry with the key.
* The environment's repeating timers (`setInterval` / `clearInterval`) are
  made explicit: the state carries the list of currently live timers
  (handle, owning job id, period) and a fresh-handle counter; `setInterval`
  appends a timer with a fresh handle, `clearInterval h` removes the timer
  with handle `h`.
* `Date.now()` is an explicit `now : Nat` argument at every call site where
  the source reads the clock.
* The caller-supplied `action : () => Promise<void>` is an opaque
  capability; it is modelled by an opaque tag `action : Nat`, and the
  outcome of awaiting it (resolve vs reject) is an explicit `Outcome`
  argument to the timer-firing function.
-/

namespace AgentScheduler

/-- `JobStatus` from `src/core/types.ts`:
`'pending' | 'running' | 'completed' | 'failed' | 'cancelled'`. -/
inductive JobStatus where
  | pending
  | running
  | completed
  | failed
  | cancelled
  deriving DecidableEq

/-- Result of awaiting a job's action: the promise resolved or rejected. -/
inductive Outcome where
  | success
  | failure
  deriving DecidableEq

/-- `ScheduledJob` from `src/core/types.ts`.  `action` is an opaque
capability tag; `intervalId` is the optional timer handle. -/
structure Job where
  id : String
  name : String
  schedule : String
  action : Nat
  enabled : Bool
  lastRun : Option Nat
  nextRun : Option Nat
  status : JobStatus
  intervalId : Option Nat
  deriving DecidableEq

/-- One live repeating timer of the environment, created by `setInterval`
inside `startJob`: its handle, the id of the job whose callback it fires,
and its period in milliseconds. -/
structure Timer where
  handle : Nat
  jobId : String
  period : Nat
  deriving DecidableEq

/-- The state of one `AgentScheduler` instance plus its timer environment:
the private `jobs` map, the private `running` flag, the live timers, and
the fresh-handle counter. -/
structure State where
  jobs : List Job
  running : Bool
  liveTimers : List Timer
  nextHandle : Nat
  deriving DecidableEq

/-- A freshly constructed `AgentScheduler`: empty map, `running = false`,
no timers armed. -/
def initState : State :=
  { jobs := [], running := false, liveTimers := [], nextHandle := 0 }

/-- `this.jobs.get(id)`. -/
def lookup (s : State) (id : String) : Option Job :=
  s.jobs.find? (fun j => j.id = id)

/-- `this.jobs.set(job.id, job)`: replace in place when the key is present
(a JS Map keeps the original insertion position), append otherwise. -/
def setJob (jobs : List Job) (job : Job) : List Job :=
  if jobs.any (fun j => j.id = job.id) then
    jobs.map (fun j => if j.id = job.id then job else j)
  else
    jobs ++ [job]

/-- Longest digit prefix of a character list, with the remainder: the
behaviour of the `(\d+)` group of the regex `^(\d+)(m|h|d)?$`. -/
def splitDigits : List Char → List Char × List Char
  | [] => ([], [])
  | c :: cs =>
    if c.isDigit then
      let p := splitDigits cs
      (c :: p.1, p.2)
    else
      ([], c :: cs)

/-- `parseInt` applied to a nonempty string of decimal digits. -/
def digitsToNat (l : List Char) : Nat :=
  l.foldl (fun a c => a * 10 + (c.toNat - '0'.toNat)) 0

/-- `schedule.match(/^(\d+)(m|h|d)?$/)`: `none` when the regex does not
match, otherwise the digit group and the optional unit group. -/
def matchSchedule (cs : List Char) : Option (List Char × Option Char) :=
  let p := splitDigits cs
  if p.1.isEmpty then none
  else
    match p.2 with
    | [] => some (p.1, none)
    | [u] => if u = 'm' ∨ u = 'h' ∨ u = 'd' then some (p.1, some u) else none
    | _ :: _ :: _ => none

/-- `parseSchedule` from `src/scheduler/scheduler.ts` (lines 160-178). -/
def parseSchedule (schedule : String) : Nat :=
  match matchSchedule schedule.data with
  | none => 60000
  | some (d, u) =>
    let value := digitsToNat d
    let unit := u.getD 'm'
    if unit = 'm' then value * 60 * 1000
    else if unit = 'h' then value * 60 * 60 * 1000
    else if unit = 'd' then value * 24 * 60 * 60 * 1000
    else value * 60 * 1000

/-- `calculateNextRun` from the source (lines 180-182). -/
def calculateNextRun (schedule : String) (now : Nat) : Nat :=
  now + parseSchedule schedule

/-- `clearInterval(j.intervalId)` guarded by `if (j.intervalId)`: remove the
job's stored timer handle from the live timers. -/
def clearStep (timers : List Timer) (j : Job) : List Timer :=
  match j.intervalId with
  | some h => timers.filter (fun t => !(t.handle = h))
  | none => timers

/-- The job object produced by `startJob`'s mutations: fresh timer handle
`h` stored, `nextRun` recomputed to `now + interval`. -/
def armJob (job : Job) (h : Nat) (now : Nat) : Job :=
  { job with
      intervalId := some h
      nextRun := some (now + parseSchedule job.schedule) }

/-- `private startJob(job)` (lines 134-158): clear the job's previous timer
if any, arm a fresh repeating timer with period `parseSchedule job.schedule`,
store the new handle on the job and recompute `nextRun`.  The argument `job`
is the map entry being mutated; the result is the new state together with
the mutated job object. -/
def startJob (s : State) (job : Job) (now : Nat) : State × Job :=
  let job' := armJob job s.nextHandle now
  ({ s with
      jobs := setJob s.jobs job'
      liveTimers := clearStep s.liveTimers job ++
        [{ handle := s.nextHandle, jobId := job.id
           period := parseSchedule job.schedule }]
      nextHandle := s.nextHandle + 1 },
   job')

/-- The job record `addJob` constructs (lines 20-28). -/
def newJob (id name schedule : String) (action : Nat) (now : Nat) : Job :=
  { id := id, name := name, schedule := schedule, action := action
    enabled := true, lastRun := none
    nextRun := some (calculateNextRun schedule now)
    status := JobStatus.pending, intervalId := none }

/-- `addJob` (lines 14-37): build the job record, `jobs.set` it, arm it at
once when the scheduler is running, and return the job object. -/
def addJob (s : State) (id name schedule : String) (action : Nat) (now : Nat) :
    State × Job :=
  let job := newJob id name schedule action now
  let s₁ := { s with jobs := setJob s.jobs job }
  if s.running then startJob s₁ job now else (s₁, job)

/-- `removeJob` (lines 42-51): clear the job's timer when armed and delete
the map entry; `false` for an unknown id. -/
def removeJob (s : State) (id : String) : State × Bool :=
  match lookup s id with
  | none => (s, false)
  | some job =>
    ({ s with
        jobs := s.jobs.eraseP (fun j => j.id = id)
        liveTimers := clearStep s.liveTimers job },
     true)

/-- One iteration of `start`'s `for (const job of this.jobs.values())`
loop, identified by the job's id: arm the job when it is enabled. -/
def stepArm (s : State) (i : String) (now : Nat) : State :=
  match lookup s i with
  | some j => if j.enabled then (startJob s j now).1 else s
  | none => s

/-- The whole `for` loop of `start`, processing the values by id. -/
def startLoop (s : State) (ids : List String) (now : Nat) : State :=
  match ids with
  | [] => s
  | i :: rest => startLoop (stepArm s i now) rest now

/-- `start` (lines 56-64): set `running = true`, then arm every enabled
job. -/
def start (s : State) (now : Nat) : State :=
  startLoop { s with running := true } (s.jobs.map (fun j => j.id)) now

/-- `stop` (lines 69-78): set `running = false`, clear every job's timer
and erase the stored handles. -/
def stop (s : State) : State :=
  { s with
      running := false
      liveTimers := s.jobs.foldl clearStep s.liveTimers
      jobs := s.jobs.map (fun j => { j with intervalId := none }) }

/-- `enableJob` (lines 83-94): `false` for an unknown id, else set
`enabled = true` and re-arm the job when the scheduler is running. -/
def enableJob (s : State) (id : String) (now : Nat) : State × Bool :=
  match lookup s id with
  | none => (s, false)
  | some job =>
    let job' := { job with enabled := true }
    let s₁ := { s with jobs := setJob s.jobs job' }
    if s.running then ((startJob s₁ job' now).1, true) else (s₁, true)

/-- `disableJob` (lines 99-111): `false` for an unknown id, else set
`enabled = false` and clear the job's timer unconditionally. -/
def disableJob (s : State) (id : String) : State × Bool :=
  match lookup s id with
  | none => (s, false)
  | some job =>
    let job' := { job with enabled := false, intervalId := none }
    ({ s with
        jobs := setJob s.jobs job'
        liveTimers := clearStep s.liveTimers job },
     true)

/-- `getJob` (lines 116-118). -/
def getJob (s : State) (id : String) : Option Job :=
  lookup s id

/-- `getAllJobs` (lines 123-125): `Array.from(this.jobs.values())`, a fresh
array holding the current values. -/
def getAllJobs (s : State) : List Job :=
  s.jobs

/-- `getAllJobs` viewed as a method call: the state after the call together
with the returned fresh array. -/
def getAllJobsCall (s : State) : State × List Job :=
  (s, getAllJobs s)

/-- `getJobsByStatus` (lines 130-132). -/
def getJobsByStatus (s : State) (status : JobStatus) : List Job :=
  (getAllJobs s).filter (fun j => j.status = status)

/-- First half of the `setInterval` callback (lines 142-145), up to the
point where the action is invoked: skip when the job is disabled, else set
`status = 'running'`.  Returns the new state and whether the action gets
invoked. -/
def fireBegin (s : State) (id : String) : State × Bool :=
  match lookup s id with
  | none => (s, false)
  | some job =>
    if job.enabled then
      ({ s with jobs := setJob s.jobs { job with status := JobStatus.running } },
       true)
    else (s, false)

/-- Second half of the callback (lines 147-154), after the action settled:
on resolve set `status = 'completed'` and stamp `lastRun`; on reject the
`catch` block sets `status = 'failed'` (the error goes to `console.error`
and is not re-thrown). -/
def fireEnd (s : State) (id : String) (outcome : Outcome) (now : Nat) : State :=
  match lookup s id with
  | none => s
  | some job =>
    let job' :=
      match outcome with
      | Outcome.success =>
        { job with status := JobStatus.completed, lastRun := some now }
      | Outcome.failure => { job with status := JobStatus.failed }
    { s with jobs := setJob s.jobs job' }

/-- One complete firing of the timer callback for job `id`: the final state
and whether the action was invoked. -/
def fireJob (s : State) (id : String) (outcome : Outcome) (now : Nat) :
    State × Bool :=
  let p := fireBegin s id
  if p.2 then (fireEnd p.1 id outcome now, true) else (p.1, false)

/-! ### Generic list helpers -/

/-- In a list whose keys are pairwise distinct, two members with the same
key coincide. -/
theorem eq_of_nodup_key {α β : Type} {l : List α} {f : α → β}
    (hnd : (l.map f).Nodup) {x y : α} (hx : x ∈ l) (hy : y ∈ l)
    (hf : f x = f y) : x = y := by
  induction l with
  | nil => cases hx
  | cons a as ih =>
    rw [List.map_cons, List.nodup_cons] at hnd
    rcases List.mem_cons.mp hx with rfl | hx' <;>
      rcases List.mem_cons.mp hy with rfl | hy'
    · rfl
    · exact absurd (hf ▸ List.mem_map_of_mem f hy') hnd.1
    · exact absurd (hf ▸ List.mem_map_of_mem f hx') hnd.1
    · exact ih hnd.2 hx' hy'

/-- A duplicate-free list whose members are pairwise equal has at most one
member. -/
theorem length_le_one_of_nodup {α : Type} {l : List α} (hnd : l.Nodup)
    (h : ∀ x ∈ l, ∀ y ∈ l, x = y) : l.length ≤ 1 := by
  match l with
  | [] => simp
  | [x] => simp
  | x :: y :: rest =>
    rw [List.nodup_cons] at hnd
    exact absurd (h x (by simp) y (by simp)).symm
      (fun hh => hnd.1 (hh ▸ List.mem_cons_self y rest))

/-! ### Lookup and `Map.set` lemmas -/

theorem lookup_mem {s : State} {i : String} {j : Job}
    (h : lookup s i = some j) : j ∈ s.jobs ∧ j.id = i :=
  ⟨List.mem_of_find?_eq_some h, by simpa using List.find?_some h⟩

theorem lookup_eq_none_iff {s : State} {i : String} :
    lookup s i = none ↔ ∀ j ∈ s.jobs, j.id ≠ i := by
  simp [lookup, List.find?_eq_none]

theorem any_id_of_mem {jobs : List Job} {j : Job} (hj : j ∈ jobs)
    {i : String} (hid : j.id = i) :
    jobs.any (fun x => x.id = i) = true :=
  List.any_eq_true.mpr ⟨j, hj, by simpa using hid⟩

theorem setJob_replace {jobs : List Job} {job : Job}
    (h : jobs.any (fun j => j.id = job.id) = true) :
    setJob jobs job = jobs.map (fun j => if j.id = job.id then job else j) := by
  simp [setJob, h]

theorem setJob_append {jobs : List Job} {job : Job}
    (h : jobs.any (fun j => j.id = job.id) = false) :
    setJob jobs job = jobs ++ [job] := by
  simp [setJob, h]

/-- Replacing the entry for `job.id` makes `job` the entry found at
`job.id`. -/
theorem find?_replace_self {jobs : List Job} {job : Job}
    (h : jobs.any (fun j => j.id = job.id) = true) :
    (jobs.map (fun j => if j.id = job.id then job else j)).find?
      (fun j => j.id = job.id) = some job := by
  induction jobs with
  | nil => simp at h
  | cons x xs ih =>
    by_cases hx : x.id = job.id
    · rw [List.map_cons, if_pos hx]
      exact List.find?_cons_of_pos _ (by simp)
    · rw [List.map_cons, if_neg hx,
        List.find?_cons_of_neg _ (by simpa using hx)]
      rw [List.any_cons] at h
      exact ih (by simpa [hx] using h)

/-- Replacing the entry for `job.id` does not change lookups at other
keys. -/
theorem find?_replace_ne {jobs : List Job} {job : Job} {i : String}
    (hne : i ≠ job.id) :
    (jobs.map (fun j => if j.id = job.id then job else j)).find?
      (fun j => j.id = i) = jobs.find? (fun j => j.id = i) := by
  induction jobs with
  | nil => simp
  | cons x xs ih =>
    by_cases hx : x.id = job.id
    · have hxi : ¬(x.id = i) := fun hh => hne (hh.symm.trans hx)
      have hji : ¬(job.id = i) := fun hh => hne hh.symm
      rw [List.map_cons, if_pos hx,
        List.find?_cons_of_neg _ (by simpa using hji),
        List.find?_cons_of_neg _ (by simpa using hxi)]
      exact ih
    · rw [List.map_cons, if_neg hx]
      by_cases hxi : x.id = i
      · rw [List.find?_cons_of_pos _ (by simpa using hxi),
          List.find?_cons_of_pos _ (by simpa using hxi)]
      · rw [List.find?_cons_of_neg _ (by simpa using hxi),
          List.find?_cons_of_neg _ (by simpa using hxi)]
        exact ih

theorem mem_replace {jobs : List Job} {job x : Job}
    (hx : x ∈ jobs.map (fun j => if j.id = job.id then job else j)) :
    x = job ∨ (x ∈ jobs ∧ x.id ≠ job.id) := by
  rcases List.mem_map.mp hx with ⟨y, hy, hxy⟩
  by_cases h : y.id = job.id
  · exact Or.inl (by rw [← hxy, if_pos h])
  · refine Or.inr ⟨?_, ?_⟩
    · rw [← hxy, if_neg h]; exact hy
    · rw [← hxy, if_neg h]; exact h

theorem mem_replace_of_ne {jobs : List Job} {job x : Job} (hx : x ∈ jobs)
    (hne : x.id ≠ job.id) :
    x ∈ jobs.map (fun j => if j.id = job.id then job else j) :=
  List.mem_map.mpr ⟨x, hx, if_neg hne⟩

theorem self_mem_replace {jobs : List Job} {job y : Job} (hy : y ∈ jobs)
    (hid : y.id = job.id) :
    job ∈ jobs.map (fun j => if j.id = job.id then job else j) :=
  List.mem_map.mpr ⟨y, hy, if_pos hid⟩

theorem ids_replace {jobs : List Job} {job : Job} :
    (jobs.map (fun j => if j.id = job.id then job else j)).map
      (fun j => j.id) = jobs.map (fun j => j.id) := by
  rw [List.map_map]
  refine List.map_congr_left (fun y _ => ?_)
  by_cases hc : y.id = job.id
  · simp only [Function.comp_apply, if_pos hc]; exact hc.symm
  · simp only [Function.comp_apply, if_neg hc]

/-- In a list with pairwise-distinct keys, erasing the entry at key `i`
keeps exactly the members whose key differs from `i`, provided some member
carries key `i`. -/
theorem mem_eraseP_id {jobs : List Job} {i : String}
    (hnd : (jobs.map (fun j => j.id)).Nodup)
    {x : Job} :
    x ∈ jobs.eraseP (fun j => j.id = i) ↔ x ∈ jobs ∧ x.id ≠ i := by
  induction jobs with
  | nil => simp
  | cons y ys ih =>
    rw [List.map_cons, List.nodup_cons] at hnd
    by_cases hy : y.id = i
    · rw [List.eraseP_cons_of_pos (by simpa using hy)]
      constructor
      · intro hx
        refine ⟨List.mem_cons_of_mem _ hx, fun hxi => ?_⟩
        exact hnd.1 ((hxi.trans hy.symm) ▸ List.mem_map_of_mem _ hx)
      · rintro ⟨hx, hxi⟩
        rcases List.mem_cons.mp hx with rfl | hx'
        · exact absurd hy hxi
        · exact hx'
    · rw [List.eraseP_cons_of_neg (by simpa using hy)]
      constructor
      · intro hx
        rcases List.mem_cons.mp hx with rfl | hx'
        · exact ⟨List.mem_cons_self _ _, hy⟩
        · have := (ih hnd.2).mp hx'
          exact ⟨List.mem_cons_of_mem _ this.1, this.2⟩
      · rintro ⟨hx, hxi⟩
        rcases List.mem_cons.mp hx with rfl | hx'
        · exact List.mem_cons_self _ _
        · exact List.mem_cons_of_mem _ ((ih hnd.2).mpr ⟨hx', hxi⟩)

/-! ### Timer bookkeeping lemmas -/

theorem mem_filter_handle {timers : List Timer} {h : Nat} {t : Timer} :
    t ∈ timers.filter (fun t' => !(t'.handle = h)) ↔
      t ∈ timers ∧ t.handle ≠ h := by
  simp [List.mem_filter]

theorem mem_clearStep {timers : List Timer} {j : Job} {t : Timer}
    (ht : t ∈ clearStep timers j) :
    t ∈ timers ∧ ∀ h, j.intervalId = some h → t.handle ≠ h := by
  cases hj : j.intervalId with
  | none =>
    simp only [clearStep, hj] at ht
    exact ⟨ht, fun h hh => by simp at hh⟩
  | some h =>
    simp only [clearStep, hj] at ht
    have h2 := mem_filter_handle.mp ht
    refine ⟨h2.1, fun h' hh' => ?_⟩
    exact (Option.some.inj hh') ▸ h2.2

theorem mem_clearStep_of {timers : List Timer} {j : Job} {t : Timer}
    (ht : t ∈ timers) (hne : ∀ h, j.intervalId = some h → t.handle ≠ h) :
    t ∈ clearStep timers j := by
  cases hj : j.intervalId with
  | none => simpa only [clearStep, hj] using ht
  | some h =>
    simp only [clearStep, hj]
    exact mem_filter_handle.mpr ⟨ht, hne h hj⟩

theorem clearStep_sublist (timers : List Timer) (j : Job) :
    (clearStep timers j).Sublist timers := by
  cases hj : j.intervalId with
  | none => simp only [clearStep, hj]; exact List.Sublist.refl _
  | some h => simp only [clearStep, hj]; exact List.filter_sublist _

theorem mem_foldl_clearStep {jobs : List Job} :
    ∀ {timers : List Timer} {t : Timer},
      t ∈ jobs.foldl clearStep timers →
      t ∈ timers ∧ ∀ j ∈ jobs, ∀ h, j.intervalId = some h → t.handle ≠ h := by
  induction jobs with
  | nil => intro timers t ht; exact ⟨ht, by simp⟩
  | cons x xs ih =>
    intro timers t ht
    rw [List.foldl_cons] at ht
    obtain ⟨ht1, ht2⟩ := ih ht
    obtain ⟨ht0, hx⟩ := mem_clearStep ht1
    refine ⟨ht0, fun j hj h hjh => ?_⟩
    rcases List.mem_cons.mp hj with rfl | hj'
    · exact hx h hjh
    · exact ht2 j hj' h hjh

/-! ### The scheduler's invariants -/

/-- Timer bookkeeping invariant: job ids are pairwise distinct (the map
keys), live timer handles are pairwise distinct, every live timer belongs
to a stored job holding its handle, every stored handle has its live
timer, and every live handle is below the fresh-handle counter. -/
def TInv (s : State) : Prop :=
  (s.jobs.map (fun j => j.id)).Nodup ∧
  (s.liveTimers.map (fun t => t.handle)).Nodup ∧
  (∀ t ∈ s.liveTimers,
    ∃ j, j ∈ s.jobs ∧ j.id = t.jobId ∧ j.intervalId = some t.handle) ∧
  (∀ j ∈ s.jobs, ∀ h, j.intervalId = some h →
    ∃ t, t ∈ s.liveTimers ∧ t.handle = h ∧ t.jobId = j.id) ∧
  (∀ t ∈ s.liveTimers, t.handle < s.nextHandle)

/-- Arm/disarm parity: a stored job holds a timer handle exactly when the
registry is running and the job is enabled. -/
def Parity (s : State) : Prop :=
  ∀ j ∈ s.jobs, j.intervalId.isSome = (s.running && j.enabled)

/-- The full reachability invariant. -/
def Inv (s : State) : Prop := TInv s ∧ Parity s

theorem stored_handle_unique {s : State} (hT : TInv s) {j j' : Job} {h : Nat}
    (hj : j ∈ s.jobs) (hj' : j' ∈ s.jobs)
    (h1 : j.intervalId = some h) (h2 : j'.intervalId = some h) : j = j' := by
  obtain ⟨hids, hnd, -, hstore, -⟩ := hT
  obtain ⟨t, ht, hth, htj⟩ := hstore j hj h h1
  obtain ⟨t', ht', hth', htj'⟩ := hstore j' hj' h h2
  have : t = t' := eq_of_nodup_key hnd ht ht' (hth.trans hth'.symm)
  exact eq_of_nodup_key hids hj hj' (htj.symm.trans (this ▸ htj'))

theorem initState_Inv : Inv initState := by
  refine ⟨⟨?_, ?_, ?_, ?_, ?_⟩, ?_⟩ <;> simp [initState, TInv, Parity]

/-! ### `startJob` preservation lemmas -/

theorem startJob_fst_jobs (s : State) (j : Job) (now : Nat) :
    (startJob s j now).1.jobs = setJob s.jobs (armJob j s.nextHandle now) :=
  rfl

theorem startJob_fst_running (s : State) (j : Job) (now : Nat) :
    (startJob s j now).1.running = s.running := rfl

theorem startJob_fst_liveTimers (s : State) (j : Job) (now : Nat) :
    (startJob s j now).1.liveTimers = clearStep s.liveTimers j ++
      [{ handle := s.nextHandle, jobId := j.id
         period := parseSchedule j.schedule }] := rfl

theorem startJob_fst_nextHandle (s : State) (j : Job) (now : Nat) :
    (startJob s j now).1.nextHandle = s.nextHandle + 1 := rfl

theorem startJob_snd (s : State) (j : Job) (now : Nat) :
    (startJob s j now).2 = armJob j s.nextHandle now := rfl

theorem armJob_id (j : Job) (h now : Nat) : (armJob j h now).id = j.id := rfl

theorem startJob_TInv {s : State} {j : Job} (hT : TInv s) (hj : j ∈ s.jobs)
    (now : Nat) : TInv (startJob s j now).1 := by
  have hids := hT.1
  have hhnd := hT.2.1
  have htj := hT.2.2.1
  have hstore := hT.2.2.2.1
  have hlt := hT.2.2.2.2
  have hany : s.jobs.any (fun x => x.id = (armJob j s.nextHandle now).id)
      = true := any_id_of_mem hj rfl
  have hjobs : (startJob s j now).1.jobs
      = s.jobs.map (fun x => if x.id = (armJob j s.nextHandle now).id
          then armJob j s.nextHandle now else x) := by
    rw [startJob_fst_jobs, setJob_replace hany]
  refine ⟨?_, ?_, ?_, ?_, ?_⟩
  · rw [hjobs, ids_replace]; exact hids
  · rw [startJob_fst_liveTimers, List.map_append, List.nodup_append]
    refine ⟨((clearStep_sublist _ _).map _).nodup hhnd, by simp, ?_⟩
    intro a ha hb
    simp only [List.map_cons, List.map_nil, List.mem_singleton] at hb
    rcases List.mem_map.mp ha with ⟨t, ht, rfl⟩
    have := hlt t ((clearStep_sublist _ _).subset ht)
    omega
  · rw [startJob_fst_liveTimers]
    intro t ht
    rcases List.mem_append.mp ht with htl | htr
    · obtain ⟨ht0, hne⟩ := mem_clearStep htl
      obtain ⟨j₁, hj₁, hj₁id, hj₁h⟩ := htj t ht0
      have hj₁ne : j₁.id ≠ j.id := by
        intro hSame
        have hjj : j₁ = j := eq_of_nodup_key hids hj₁ hj hSame
        exact hne t.handle (hjj ▸ hj₁h) rfl
      refine ⟨j₁, ?_, hj₁id, hj₁h⟩
      rw [hjobs]
      exact mem_replace_of_ne hj₁ hj₁ne
    · simp only [List.mem_singleton] at htr
      subst htr
      refine ⟨armJob j s.nextHandle now, ?_, rfl, rfl⟩
      rw [hjobs]
      exact self_mem_replace hj rfl
  · intro x hx h hxh
    rw [hjobs] at hx
    rw [startJob_fst_liveTimers]
    rcases mem_replace hx with rfl | ⟨hxmem, hxne⟩
    · have hh : h = s.nextHandle := (Option.some.inj hxh).symm
      subst hh
      exact ⟨_, List.mem_append_right _ (List.mem_singleton.mpr rfl), rfl, rfl⟩
    · obtain ⟨t, ht, hth, htid⟩ := hstore x hxmem h hxh
      refine ⟨t, List.mem_append_left _ (mem_clearStep_of ht ?_), hth, htid⟩
      intro hh hjh hthh
      have : x = j := stored_handle_unique
        ⟨hids, hhnd, htj, hstore, hlt⟩ hxmem hj
        (by rw [hxh, ← hth, hthh, ← hjh]) hjh
      exact hxne (this ▸ rfl)
  · rw [startJob_fst_liveTimers, startJob_fst_nextHandle]
    intro t ht
    rcases List.mem_append.mp ht with htl | htr
    · exact Nat.lt_succ_of_lt (hlt t ((clearStep_sublist _ _).subset htl))
    · simp only [List.mem_singleton] at htr
      subst htr
      exact Nat.lt_succ_self _

theorem stepArm_TInv {s : State} (hT : TInv s) (i : String) (now : Nat) :
    TInv (stepArm s i now) := by
  cases hl : lookup s i with
  | none => simpa only [stepArm, hl] using hT
  | some j =>
    cases he : j.enabled with
    | false => simpa only [stepArm, hl, he, Bool.false_eq_true,
        if_false] using hT
    | true =>
      simp only [stepArm, hl, he, if_true]
      exact startJob_TInv hT (lookup_mem hl).1 now

theorem startLoop_TInv {ids : List String} :
    ∀ {s : State}, TInv s → ∀ now, TInv (startLoop s ids now) := by
  induction ids with
  | nil => intro s hT _; exact hT
  | cons i rest ih => intro s hT now; exact ih (stepArm_TInv hT i now) now

theorem start_TInv {s : State} (hT : TInv s) (now : Nat) :
    TInv (start s now) :=
  startLoop_TInv (s := { s with running := true }) hT now

/-- Replacing a stored job by an update that keeps its id and timer handle
preserves the timer bookkeeping invariant. -/
theorem setJob_same_handle_TInv {s : State} {job job' : Job} (hT : TInv s)
    (hjmem : job ∈ s.jobs) (hid : job'.id = job.id)
    (hint : job'.intervalId = job.intervalId) :
    TInv { s with jobs := setJob s.jobs job' } := by
  have hany : s.jobs.any (fun x => x.id = job'.id) = true :=
    any_id_of_mem hjmem hid.symm
  have hrep : setJob s.jobs job'
      = s.jobs.map (fun x => if x.id = job'.id then job' else x) :=
    setJob_replace hany
  refine ⟨?_, hT.2.1, ?_, ?_, hT.2.2.2.2⟩
  · show (List.map (fun j => j.id) (setJob s.jobs job')).Nodup
    rw [hrep, ids_replace]; exact hT.1
  · intro t ht
    obtain ⟨j₁, hj₁, hj₁id, hj₁h⟩ := hT.2.2.1 t ht
    by_cases hsame : j₁.id = job'.id
    · have hje : j₁ = job :=
        eq_of_nodup_key hT.1 hj₁ hjmem (hsame.trans hid)
      refine ⟨job', ?_, ?_, ?_⟩
      · show job' ∈ setJob s.jobs job'
        rw [hrep]; exact self_mem_replace hj₁ hsame
      · rw [hid, ← hje]; exact hj₁id
      · rw [hint, ← hje]; exact hj₁h
    · refine ⟨j₁, ?_, hj₁id, hj₁h⟩
      show j₁ ∈ setJob s.jobs job'
      rw [hrep]; exact mem_replace_of_ne hj₁ hsame
  · intro x hx h hxh
    rw [show ({ s with jobs := setJob s.jobs job' } : State).jobs
        = setJob s.jobs job' from rfl, hrep] at hx
    rcases mem_replace hx with rfl | ⟨hxmem, hxne⟩
    · obtain ⟨t, ht, hth, htid⟩ :=
        hT.2.2.2.1 job hjmem h (hint.symm.trans hxh)
      exact ⟨t, ht, hth, htid.trans hid.symm⟩
    · exact hT.2.2.2.1 x hxmem h hxh

theorem addJob_TInv {s : State} {id name schedule : String}
    {action now : Nat} (hT : TInv s) (hl : lookup s id = none) :
    TInv (addJob s id name schedule action now).1 := by
  have hids := hT.1
  have hnotin : ∀ j ∈ s.jobs, j.id ≠ id := lookup_eq_none_iff.mp hl
  have hnotany : s.jobs.any
      (fun x => x.id = (newJob id name schedule action now).id) = false := by
    rw [List.any_eq_false]
    intro x hx
    simpa using hnotin x hx
  have happ : setJob s.jobs (newJob id name schedule action now)
      = s.jobs ++ [newJob id name schedule action now] :=
    setJob_append hnotany
  have hT₁ : TInv { s with
      jobs := setJob s.jobs (newJob id name schedule action now) } := by
    refine ⟨?_, hT.2.1, ?_, ?_, hT.2.2.2.2⟩
    · show (List.map (fun j => j.id) (setJob s.jobs _)).Nodup
      rw [happ, List.map_append, List.nodup_append]
      refine ⟨hids, by simp, ?_⟩
      intro a ha hb
      simp only [List.map_cons, List.map_nil, List.mem_singleton] at hb
      rcases List.mem_map.mp ha with ⟨x, hx, rfl⟩
      exact hnotin x hx (by simpa using hb)
    · intro t ht
      obtain ⟨j₁, hj₁, hj₁id, hj₁h⟩ := hT.2.2.1 t ht
      refine ⟨j₁, ?_, hj₁id, hj₁h⟩
      show j₁ ∈ setJob s.jobs _
      rw [happ]; exact List.mem_append_left _ hj₁
    · intro x hx h hxh
      rw [show ({ s with jobs := setJob s.jobs (newJob id name schedule
          action now) } : State).jobs = setJob s.jobs _ from rfl,
        happ] at hx
      rcases List.mem_append.mp hx with hx' | hx'
      · exact hT.2.2.2.1 x hx' h hxh
      · simp only [List.mem_singleton] at hx'
        subst hx'
        cases hxh
  cases hr : s.running with
  | false => simpa only [addJob, hr, Bool.false_eq_true, if_false] using hT₁
  | true =>
    simp only [addJob, hr, if_true]
    refine startJob_TInv hT₁ ?_ now
    show newJob id name schedule action now ∈ setJob s.jobs _
    rw [happ]
    exact List.mem_append_right _ (List.mem_singleton.mpr rfl)

theorem removeJob_TInv {s : State} {id : String} (hT : TInv s) :
    TInv (removeJob s id).1 := by
  cases hl : lookup s id with
  | none => simpa only [removeJob, hl] using hT
  | some job =>
    obtain ⟨hjmem, hjid⟩ := lookup_mem hl
    simp only [removeJob, hl]
    refine ⟨?_, ?_, ?_, ?_, ?_⟩
    · exact ((List.eraseP_sublist _).map _).nodup hT.1
    · exact ((clearStep_sublist _ _).map _).nodup hT.2.1
    · intro t ht
      obtain ⟨ht0, hne⟩ := mem_clearStep ht
      obtain ⟨j₁, hj₁, hj₁id, hj₁h⟩ := hT.2.2.1 t ht0
      have hj₁ne : j₁.id ≠ id := by
        intro hSame
        have hje : j₁ = job :=
          eq_of_nodup_key hT.1 hj₁ hjmem (hSame.trans hjid.symm)
        exact hne t.handle (hje ▸ hj₁h) rfl
      exact ⟨j₁, (mem_eraseP_id hT.1).mpr ⟨hj₁, hj₁ne⟩, hj₁id, hj₁h⟩
    · intro x hx h hxh
      have hx' := (mem_eraseP_id hT.1).mp hx
      obtain ⟨t, ht, hth, htid⟩ := hT.2.2.2.1 x hx'.1 h hxh
      refine ⟨t, mem_clearStep_of ht ?_, hth, htid⟩
      intro hh hjh hthh
      have hxj : x = job := stored_handle_unique hT hx'.1 hjmem
        (by rw [hxh, ← hth, hthh]) hjh
      exact hx'.2 (hxj ▸ hjid)
    · intro t ht
      exact hT.2.2.2.2 t ((clearStep_sublist _ _).subset ht)

theorem foldl_clearStep_sublist (jobs : List Job) :
    ∀ timers : List Timer, (jobs.foldl clearStep timers).Sublist timers := by
  induction jobs with
  | nil => intro timers; exact List.Sublist.refl _
  | cons x xs ih =>
    intro timers
    exact (ih (clearStep timers x)).trans (clearStep_sublist timers x)

theorem stop_TInv {s : State} (hT : TInv s) : TInv (stop s) := by
  refine ⟨?_, ?_, ?_, ?_, ?_⟩
  · show ((s.jobs.map (fun j => { j with intervalId := none })).map
      (fun j => j.id)).Nodup
    rw [List.map_map]
    exact (List.map_congr_left (fun y _ => rfl) : _) ▸ hT.1
  · exact ((foldl_clearStep_sublist _ _).map _).nodup hT.2.1
  · intro t ht
    exfalso
    obtain ⟨ht0, hall⟩ := mem_foldl_clearStep ht
    obtain ⟨j₁, hj₁, -, hj₁h⟩ := hT.2.2.1 t ht0
    exact hall j₁ hj₁ t.handle hj₁h rfl
  · intro x hx h hxh
    rcases List.mem_map.mp hx with ⟨y, -, rfl⟩
    cases hxh
  · intro t ht
    exact hT.2.2.2.2 t ((foldl_clearStep_sublist _ _).subset ht)

theorem enableJob_TInv {s : State} {id : String} {now : Nat} (hT : TInv s) :
    TInv (enableJob s id now).1 := by
  cases hl : lookup s id with
  | none => simpa only [enableJob, hl] using hT
  | some job =>
    obtain ⟨hjmem, hjid⟩ := lookup_mem hl
    have hT₁ : TInv
        { s with jobs := setJob s.jobs ({ job with enabled := true }) } :=
      setJob_same_handle_TInv hT hjmem rfl rfl
    cases hr : s.running with
    | false => simpa only [enableJob, hl, hr, Bool.false_eq_true,
        if_false] using hT₁
    | true =>
      simp only [enableJob, hl, hr, if_true]
      refine startJob_TInv hT₁ ?_ now
      have hany2 : s.jobs.any
          (fun x => x.id = ({ job with enabled := true } : Job).id) = true :=
        any_id_of_mem hjmem rfl
      show ({ job with enabled := true } : Job) ∈ setJob s.jobs _
      rw [setJob_replace hany2]
      exact self_mem_replace hjmem rfl

theorem disableJob_TInv {s : State} {id : String} (hT : TInv s) :
    TInv (disableJob s id).1 := by
  cases hl : lookup s id with
  | none => simpa only [disableJob, hl] using hT
  | some job =>
    obtain ⟨hjmem, hjid⟩ := lookup_mem hl
    have hany : s.jobs.any (fun x => x.id =
        ({ job with enabled := false, intervalId := none } : Job).id)
        = true := any_id_of_mem hjmem rfl
    simp only [disableJob, hl]
    refine ⟨?_, ?_, ?_, ?_, ?_⟩
    · show (List.map (fun j => j.id) (setJob s.jobs _)).Nodup
      rw [setJob_replace hany, ids_replace]; exact hT.1
    · exact ((clearStep_sublist _ _).map _).nodup hT.2.1
    · intro t ht
      obtain ⟨ht0, hne⟩ := mem_clearStep ht
      obtain ⟨j₁, hj₁, hj₁id, hj₁h⟩ := hT.2.2.1 t ht0
      have hj₁ne : j₁.id ≠ job.id := by
        intro hSame
        have hje : j₁ = job := eq_of_nodup_key hT.1 hj₁ hjmem hSame
        exact hne t.handle (hje ▸ hj₁h) rfl
      refine ⟨j₁, ?_, hj₁id, hj₁h⟩
      show j₁ ∈ setJob s.jobs _
      rw [setJob_replace hany]
      exact mem_replace_of_ne hj₁ hj₁ne
    · intro x hx h hxh
      have hx2 : x ∈ setJob s.jobs
          ({ job with enabled := false, intervalId := none }) := hx
      rw [setJob_replace hany] at hx2
      clear hx
      rcases mem_replace hx2 with rfl | ⟨hxmem, hxne⟩
      · cases hxh
      · obtain ⟨t, ht, hth, htid⟩ := hT.2.2.2.1 x hxmem h hxh
        refine ⟨t, mem_clearStep_of ht ?_, hth, htid⟩
        intro hh hjh hthh
        have hxj : x = job := stored_handle_unique hT hxmem hjmem
          (by rw [hxh, ← hth, hthh]) hjh
        exact hxne (hxj ▸ rfl)
    · intro t ht
      exact hT.2.2.2.2 t ((clearStep_sublist _ _).subset ht)

/-! ### Observable state

The observable part of a job hides the numeric identity of its timer
handle, keeping only whether one is present; this is what the spec means
by "the observable registry state". -/

structure ObsJob where
  id : String
  name : String
  schedule : String
  action : Nat
  enabled : Bool
  lastRun : Option Nat
  nextRun : Option Nat
  status : JobStatus
  armed : Bool
  deriving DecidableEq

def obsJob (j : Job) : ObsJob :=
  { id := j.id, name := j.name, schedule := j.schedule, action := j.action
    enabled := j.enabled, lastRun := j.lastRun, nextRun := j.nextRun
    status := j.status, armed := j.intervalId.isSome }

/-- The observable registry state: the observable jobs in map order plus
the `running` flag. -/
def obs (s : State) : List ObsJob × Bool := (s.jobs.map obsJob, s.running)

/-- Observable effect of arming one job at time `now`. -/
def obsArm (now : Nat) (oj : ObsJob) : ObsJob :=
  { oj with armed := true, nextRun := some (now + parseSchedule oj.schedule) }

/-- Observable effect of one `stepArm` iteration for id `i`. -/
def obsArmIf (i : String) (now : Nat) (oj : ObsJob) : ObsJob :=
  if oj.id = i ∧ oj.enabled = true then obsArm now oj else oj

/-- Observable effect of the whole `start` loop over processed ids. -/
def bigArm (ids : List String) (now : Nat) (oj : ObsJob) : ObsJob :=
  if oj.id ∈ ids ∧ oj.enabled = true then obsArm now oj else oj

theorem obsJob_armJob (j : Job) (h now : Nat) :
    obsJob (armJob j h now) = obsArm now (obsJob j) := rfl

theorem obsArm_id (now : Nat) (oj : ObsJob) : (obsArm now oj).id = oj.id :=
  rfl

theorem obsArm_enabled (now : Nat) (oj : ObsJob) :
    (obsArm now oj).enabled = oj.enabled := rfl

theorem obsArm_obsArm (n₁ n₂ : Nat) (oj : ObsJob) :
    obsArm n₂ (obsArm n₁ oj) = obsArm n₂ oj := rfl

theorem bigArm_nil (now : Nat) (oj : ObsJob) : bigArm [] now oj = oj := by
  rw [bigArm, if_neg]
  rintro ⟨h, -⟩
  cases h

theorem bigArm_obsArmIf (i : String) (rest : List String) (now : Nat)
    (oj : ObsJob) :
    bigArm rest now (obsArmIf i now oj) = bigArm (i :: rest) now oj := by
  rw [obsArmIf]
  by_cases h1 : oj.id = i ∧ oj.enabled = true
  · rw [if_pos h1, bigArm, bigArm]
    by_cases h2 : oj.id ∈ rest
    · rw [if_pos ⟨h2, h1.2⟩, if_pos ⟨List.mem_cons_of_mem _ h2, h1.2⟩,
        obsArm_obsArm]
    · by_cases h3 : (obsArm now oj).id ∈ rest
      · exact absurd h3 h2
      · rw [if_neg (fun hc => h3 hc.1),
          if_pos ⟨h1.1 ▸ List.mem_cons_self _ _, h1.2⟩]
  · rw [if_neg h1, bigArm, bigArm]
    by_cases h2 : oj.id ∈ rest ∧ oj.enabled = true
    · rw [if_pos h2, if_pos ⟨List.mem_cons_of_mem _ h2.1, h2.2⟩]
    · rw [if_neg h2, if_neg ?_]
      rintro ⟨hmem, hen⟩
      rcases List.mem_cons.mp hmem with heq | hmem'
      · exact h1 ⟨heq, hen⟩
      · exact h2 ⟨hmem', hen⟩

theorem bigArm_bigArm (ids : List String) (n₁ n₂ : Nat) (oj : ObsJob) :
    bigArm ids n₂ (bigArm ids n₁ oj) = bigArm ids n₂ oj := by
  by_cases h : oj.id ∈ ids ∧ oj.enabled = true
  · have h1 : bigArm ids n₁ oj = obsArm n₁ oj := by rw [bigArm, if_pos h]
    have h2 : bigArm ids n₂ oj = obsArm n₂ oj := by rw [bigArm, if_pos h]
    have h3 : bigArm ids n₂ (obsArm n₁ oj) = obsArm n₂ (obsArm n₁ oj) := by
      rw [bigArm,
        if_pos (show (obsArm n₁ oj).id ∈ ids ∧ (obsArm n₁ oj).enabled = true
          from h)]
    rw [h1, h3, obsArm_obsArm, h2]
  · have h1 : bigArm ids n₁ oj = oj := by rw [bigArm, if_neg h]
    have h2 : bigArm ids n₂ oj = oj := by rw [bigArm, if_neg h]
    rw [h1, h2]

theorem stepArm_ids (s : State) (i : String) (now : Nat) :
    (stepArm s i now).jobs.map (fun j => j.id)
      = s.jobs.map (fun j => j.id) := by
  cases hl : lookup s i with
  | none => simp only [stepArm, hl]
  | some j =>
    cases he : j.enabled with
    | false => simp only [stepArm, hl, he, Bool.false_eq_true, if_false]
    | true =>
      simp only [stepArm, hl, he, if_true]
      have hany : s.jobs.any
          (fun x => x.id = (armJob j s.nextHandle now).id) = true :=
        any_id_of_mem (lookup_mem hl).1 rfl
      rw [startJob_fst_jobs, setJob_replace hany, ids_replace]

theorem stepArm_running (s : State) (i : String) (now : Nat) :
    (stepArm s i now).running = s.running := by
  cases hl : lookup s i with
  | none => simp only [stepArm, hl]
  | some j =>
    cases he : j.enabled with
    | false => simp only [stepArm, hl, he, Bool.false_eq_true, if_false]
    | true => simp only [stepArm, hl, he, if_true, startJob_fst_running]

theorem stepArm_jobs_obs {s : State}
    (hnd : (s.jobs.map (fun j => j.id)).Nodup) (i : String) (now : Nat) :
    (stepArm s i now).jobs.map obsJob
      = s.jobs.map (fun j => obsArmIf i now (obsJob j)) := by
  cases hl : lookup s i with
  | none =>
    simp only [stepArm, hl]
    refine List.map_congr_left (fun j hj => ?_)
    have hne : j.id ≠ i := lookup_eq_none_iff.mp hl j hj
    rw [obsArmIf, if_neg (fun hc => hne hc.1)]
  | some j =>
    obtain ⟨hjmem, hjid⟩ := lookup_mem hl
    cases he : j.enabled with
    | false =>
      simp only [stepArm, hl, he, Bool.false_eq_true, if_false]
      refine List.map_congr_left (fun x hx => ?_)
      rw [obsArmIf, if_neg]
      rintro ⟨hcid, hcen⟩
      have hxj : x = j := eq_of_nodup_key hnd hx hjmem (hcid.trans hjid.symm)
      rw [hxj] at hcen
      exact absurd (rfl.trans hcen : j.enabled = true) (he ▸ Bool.false_ne_true)
    | true =>
      simp only [stepArm, hl, he, if_true]
      have hany : s.jobs.any
          (fun x => x.id = (armJob j s.nextHandle now).id) = true :=
        any_id_of_mem hjmem rfl
      rw [startJob_fst_jobs, setJob_replace hany, List.map_map]
      refine List.map_congr_left (fun x hx => ?_)
      simp only [Function.comp_apply]
      by_cases hc : x.id = i
      · have hxj : x = j := eq_of_nodup_key hnd hx hjmem (hc.trans hjid.symm)
        have hcond : x.id = (armJob j s.nextHandle now).id :=
          hc.trans hjid.symm
        rw [if_pos hcond, obsJob_armJob, obsArmIf,
          if_pos ⟨hc, by rw [hxj] at *; exact he⟩, hxj]
      · have hcond : ¬(x.id = (armJob j s.nextHandle now).id) :=
          fun hh => hc (hh.trans hjid)
        rw [if_neg hcond, obsArmIf, if_neg (fun hcc => hc hcc.1)]

theorem startLoop_obs {ids : List String} :
    ∀ {s : State}, (s.jobs.map (fun j => j.id)).Nodup → ∀ now : Nat,
      (startLoop s ids now).jobs.map obsJob
          = s.jobs.map (fun j => bigArm ids now (obsJob j))
        ∧ (startLoop s ids now).running = s.running
        ∧ (startLoop s ids now).jobs.map (fun j => j.id)
          = s.jobs.map (fun j => j.id) := by
  induction ids with
  | nil =>
    intro s hnd now
    exact ⟨(List.map_congr_left (fun j _ => (bigArm_nil now (obsJob j)).symm)),
      rfl, rfl⟩
  | cons i rest ih =>
    intro s hnd now
    have hids := stepArm_ids s i now
    have hnd' : ((stepArm s i now).jobs.map (fun j => j.id)).Nodup :=
      hids ▸ hnd
    obtain ⟨h1, h2, h3⟩ := ih hnd' now
    have hloop : startLoop s (i :: rest) now
        = startLoop (stepArm s i now) rest now := rfl
    refine ⟨?_, ?_, ?_⟩
    · rw [hloop, h1]
      have hmm : (stepArm s i now).jobs.map
            (fun j => bigArm rest now (obsJob j))
          = ((stepArm s i now).jobs.map obsJob).map (bigArm rest now) := by
        rw [List.map_map]
        exact List.map_congr_left (fun j _ => rfl)
      rw [hmm, stepArm_jobs_obs hnd i now, List.map_map]
      refine List.map_congr_left (fun j _ => ?_)
      simp only [Function.comp_apply]
      exact bigArm_obsArmIf i rest now (obsJob j)
    · rw [hloop, h2, stepArm_running]
    · rw [hloop, h3, hids]

theorem start_obs {s : State}
    (hnd : (s.jobs.map (fun j => j.id)).Nodup) (now : Nat) :
    (start s now).jobs.map obsJob
        = s.jobs.map
            (fun j => bigArm (s.jobs.map (fun x => x.id)) now (obsJob j))
      ∧ (start s now).running = true
      ∧ (start s now).jobs.map (fun j => j.id)
        = s.jobs.map (fun j => j.id) :=
  startLoop_obs (s := { s with running := true }) hnd now

/-! ### Parity preservation -/

theorem addJob_setJob {s : State} {id name schedule : String}
    {action now : Nat} (hl : lookup s id = none) :
    setJob s.jobs (newJob id name schedule action now)
      = s.jobs ++ [newJob id name schedule action now] := by
  apply setJob_append
  rw [List.any_eq_false]
  intro x hx
  simpa using lookup_eq_none_iff.mp hl x hx

theorem stop_Parity (s : State) : Parity (stop s) := by
  intro x hx
  have hx2 : x ∈ s.jobs.map (fun j => { j with intervalId := none }) := hx
  rcases List.mem_map.mp hx2 with ⟨y, -, rfl⟩
  simp [stop]

theorem removeJob_Parity {s : State} {id : String} (hI : Inv s) :
    Parity (removeJob s id).1 := by
  cases hl : lookup s id with
  | none => simpa only [removeJob, hl] using hI.2
  | some job =>
    simp only [removeJob, hl]
    intro x hx
    have hx2 : x ∈ s.jobs.eraseP (fun j => j.id = id) := hx
    exact hI.2 x ((List.eraseP_sublist _).subset hx2)

theorem disableJob_Parity {s : State} {id : String} (hI : Inv s) :
    Parity (disableJob s id).1 := by
  cases hl : lookup s id with
  | none => simpa only [disableJob, hl] using hI.2
  | some job =>
    obtain ⟨hjmem, hjid⟩ := lookup_mem hl
    have hany : s.jobs.any (fun x => x.id =
        ({ job with enabled := false, intervalId := none } : Job).id)
        = true := any_id_of_mem hjmem rfl
    simp only [disableJob, hl]
    intro x hx
    have hx2 : x ∈ setJob s.jobs
        ({ job with enabled := false, intervalId := none }) := hx
    rw [setJob_replace hany] at hx2
    rcases mem_replace hx2 with rfl | ⟨hxmem, hxne⟩
    · show (none : Option Nat).isSome = (s.running && false)
      simp
    · exact hI.2 x hxmem

theorem addJob_Parity {s : State} {id name schedule : String}
    {action now : Nat} (hI : Inv s) (hl : lookup s id = none) :
    Parity (addJob s id name schedule action now).1 := by
  cases hr : s.running with
  | false =>
    simp only [addJob, hr, Bool.false_eq_true, if_false]
    intro x hx
    have hx2 : x ∈ setJob s.jobs (newJob id name schedule action now) := hx
    rw [addJob_setJob hl] at hx2
    rcases List.mem_append.mp hx2 with hx3 | hx3
    · exact hr ▸ hI.2 x hx3
    · simp only [List.mem_singleton] at hx3
      subst hx3
      rfl
  | true =>
    simp only [addJob, hr, if_true]
    intro x hx
    have hnewmem : newJob id name schedule action now
        ∈ setJob s.jobs (newJob id name schedule action now) := by
      rw [addJob_setJob hl]
      exact List.mem_append_right _ (List.mem_singleton.mpr rfl)
    have hany : (setJob s.jobs (newJob id name schedule action now)).any
        (fun x => x.id = (armJob (newJob id name schedule action now)
          s.nextHandle now).id) = true :=
      any_id_of_mem hnewmem rfl
    have hx2 : x ∈ setJob (setJob s.jobs (newJob id name schedule action now))
        (armJob (newJob id name schedule action now) s.nextHandle now) := hx
    rw [setJob_replace hany] at hx2
    rcases mem_replace hx2 with rfl | ⟨hxmem, hxne⟩
    · rfl
    · rw [addJob_setJob hl] at hxmem
      rcases List.mem_append.mp hxmem with hx3 | hx3
      · exact hr ▸ hI.2 x hx3
      · simp only [List.mem_singleton] at hx3
        subst hx3
        exact absurd rfl hxne

theorem enableJob_Parity {s : State} {id : String} {now : Nat} (hI : Inv s) :
    Parity (enableJob s id now).1 := by
  cases hl : lookup s id with
  | none => simpa only [enableJob, hl] using hI.2
  | some job =>
    obtain ⟨hjmem, hjid⟩ := lookup_mem hl
    have hany2 : s.jobs.any
        (fun x => x.id = ({ job with enabled := true } : Job).id) = true :=
      any_id_of_mem hjmem rfl
    cases hr : s.running with
    | false =>
      simp only [enableJob, hl, hr, Bool.false_eq_true, if_false]
      intro x hx
      have hx2 : x ∈ setJob s.jobs ({ job with enabled := true }) := hx
      rw [setJob_replace hany2] at hx2
      rcases mem_replace hx2 with rfl | ⟨hxmem, hxne⟩
      · have hjp := hI.2 job hjmem
        rw [hr, Bool.false_and] at hjp
        exact hjp
      · exact hr ▸ hI.2 x hxmem
    | true =>
      simp only [enableJob, hl, hr, if_true]
      intro x hx
      have hjmem2 : ({ job with enabled := true } : Job)
          ∈ setJob s.jobs ({ job with enabled := true }) := by
        rw [setJob_replace hany2]
        exact self_mem_replace hjmem rfl
      have hany3 : (setJob s.jobs ({ job with enabled := true })).any
          (fun x => x.id = (armJob ({ job with enabled := true })
            s.nextHandle now).id) = true :=
        any_id_of_mem hjmem2 rfl
      have hx2 : x ∈ setJob (setJob s.jobs ({ job with enabled := true }))
          (armJob ({ job with enabled := true }) s.nextHandle now) := hx
      rw [setJob_replace hany3] at hx2
      rcases mem_replace hx2 with rfl | ⟨hxmem, hxne⟩
      · rfl
      · rw [setJob_replace hany2] at hxmem
        rcases mem_replace hxmem with rfl | ⟨hxmem2, hxne2⟩
        · exact absurd rfl hxne
        · exact hr ▸ hI.2 x hxmem2

theorem start_Parity {s : State} (hI : Inv s) (now : Nat) :
    Parity (start s now) := by
  obtain ⟨hobs, hrun, -⟩ := start_obs hI.1.1 now
  intro x hx
  have hmem : obsJob x ∈ (start s now).jobs.map obsJob :=
    List.mem_map_of_mem _ hx
  rw [hobs] at hmem
  rcases List.mem_map.mp hmem with ⟨j, hj, hje⟩
  have hxa : x.intervalId.isSome = (obsJob x).armed := rfl
  have hxe : x.enabled = (obsJob x).enabled := rfl
  rw [hrun, Bool.true_and, hxa, hxe, ← hje, bigArm]
  by_cases hc : (obsJob j).id ∈ s.jobs.map (fun x' => x'.id)
      ∧ (obsJob j).enabled = true
  · rw [if_pos hc]
    show true = (obsArm now (obsJob j)).enabled
    rw [obsArm_enabled, hc.2]
  · rw [if_neg hc]
    have hjid2 : (obsJob j).id ∈ s.jobs.map (fun x' => x'.id) :=
      List.mem_map.mpr ⟨j, hj, rfl⟩
    have hen : (obsJob j).enabled = false := by
      cases hbe : (obsJob j).enabled
      · rfl
      · exact absurd ⟨hjid2, hbe⟩ hc
    rw [hen]
    show j.intervalId.isSome = false
    rw [hI.2 j hj, show j.enabled = false from hen, Bool.and_false]

/-! ### Reachability -/

theorem addJob_Inv {s : State} {id name schedule : String}
    {action now : Nat} (hI : Inv s) (hl : lookup s id = none) :
    Inv (addJob s id name schedule action now).1 :=
  ⟨addJob_TInv hI.1 hl, addJob_Parity hI hl⟩

theorem removeJob_Inv {s : State} {id : String} (hI : Inv s) :
    Inv (removeJob s id).1 :=
  ⟨removeJob_TInv hI.1, removeJob_Parity hI⟩

theorem start_Inv {s : State} (hI : Inv s) (now : Nat) :
    Inv (start s now) :=
  ⟨start_TInv hI.1 now, start_Parity hI now⟩

theorem stop_Inv {s : State} (hI : Inv s) : Inv (stop s) :=
  ⟨stop_TInv hI.1, stop_Parity s⟩

theorem enableJob_Inv {s : State} {id : String} {now : Nat} (hI : Inv s) :
    Inv (enableJob s id now).1 :=
  ⟨enableJob_TInv hI.1, enableJob_Parity hI⟩

theorem disableJob_Inv {s : State} {id : String} (hI : Inv s) :
    Inv (disableJob s id).1 :=
  ⟨disableJob_TInv hI.1, disableJob_Parity hI⟩

/-- States reachable from a fresh scheduler by any sequence of the public
operations, with `addJob` restricted to fresh ids. -/
inductive Reachable : State → Prop where
  | init : Reachable initState
  | add {s : State} (id name schedule : String) (action now : Nat) :
      Reachable s → lookup s id = none →
      Reachable (addJob s id name schedule action now).1
  | remove {s : State} (id : String) :
      Reachable s → Reachable (removeJob s id).1
  | runStart {s : State} (now : Nat) : Reachable s → Reachable (start s now)
  | runStop {s : State} : Reachable s → Reachable (stop s)
  | enable {s : State} (id : String) (now : Nat) :
      Reachable s → Reachable (enableJob s id now).1
  | disable {s : State} (id : String) :
      Reachable s → Reachable (disableJob s id).1

theorem reachable_Inv {s : State} (hR : Reachable s) : Inv s := by
  induction hR with
  | init => exact initState_Inv
  | add id name schedule action now hR hl ih => exact addJob_Inv ih hl
  | remove id hR ih => exact removeJob_Inv ih
  | runStart now hR ih => exact start_Inv ih now
  | runStop hR ih => exact stop_Inv ih
  | enable id now hR ih => exact enableJob_Inv ih
  | disable id hR ih => exact disableJob_Inv ih


/-! ### Grammar of `^(\d+)(m|h|d)?$` -/

/-- The spec grammar: one or more decimal digits optionally followed by a
single unit letter `m`, `h` or `d`.  Stated from the spec wording, to be
compared with the executable matcher `matchSchedule` taken from the
source's regex. -/
def GrammarMatch (cs : List Char) : Prop :=
  ∃ d u : List Char, cs = d ++ u ∧ d ≠ [] ∧ d.all Char.isDigit = true ∧
    (u = [] ∨ u = ['m'] ∨ u = ['h'] ∨ u = ['d'])

theorem splitDigits_spec (cs : List Char) :
    cs = (splitDigits cs).1 ++ (splitDigits cs).2
    ∧ (splitDigits cs).1.all Char.isDigit = true := by
  induction cs with
  | nil => exact ⟨rfl, rfl⟩
  | cons c cs ih =>
    by_cases hc : c.isDigit = true
    · simp only [splitDigits, hc, if_true]
      refine ⟨?_, ?_⟩
      · rw [List.cons_append, ← ih.1]
      · rw [List.all_cons, Bool.and_eq_true]
        exact ⟨hc, ih.2⟩
    · simp only [splitDigits, hc, Bool.false_eq_true, if_false]
      exact ⟨rfl, rfl⟩

theorem splitDigits_all_digits {cs : List Char}
    (h : cs.all Char.isDigit = true) : splitDigits cs = (cs, []) := by
  induction cs with
  | nil => rfl
  | cons c cs ih =>
    rw [List.all_cons, Bool.and_eq_true] at h
    simp only [splitDigits, h.1, if_true, ih h.2]

theorem splitDigits_append {r : List Char}
    (hr : ∀ c, r.head? = some c → c.isDigit = false) :
    ∀ d : List Char, d.all Char.isDigit = true →
      splitDigits (d ++ r) = (d, r) := by
  intro d
  induction d with
  | nil =>
    intro _
    cases r with
    | nil => rfl
    | cons c cs =>
      have hc : c.isDigit = false := hr c rfl
      simp only [List.nil_append, splitDigits, hc, Bool.false_eq_true,
        if_false]
  | cons c d ih =>
    intro hd
    rw [List.all_cons, Bool.and_eq_true] at hd
    simp only [List.cons_append, splitDigits, hd.1, if_true]
    have hih : splitDigits (d.append r) = (d, r) := ih hd.2
    rw [hih]

theorem matchSchedule_eq (cs : List Char) :
    matchSchedule cs =
      (if (splitDigits cs).1.isEmpty = true then none
       else
        match (splitDigits cs).2 with
        | [] => some ((splitDigits cs).1, none)
        | [u] =>
          if u = 'm' ∨ u = 'h' ∨ u = 'd'
          then some ((splitDigits cs).1, some u) else none
        | _ :: _ :: _ => none) := rfl

theorem matchSchedule_digits {d : List Char} (hne : d ≠ [])
    (hd : d.all Char.isDigit = true) :
    matchSchedule d = some (d, none) := by
  cases d with
  | nil => exact absurd rfl hne
  | cons c cs =>
    rw [matchSchedule_eq, splitDigits_all_digits hd]
    simp only [List.isEmpty_cons, Bool.false_eq_true, if_false]

theorem matchSchedule_unit {d : List Char} {u : Char} (hne : d ≠ [])
    (hd : d.all Char.isDigit = true)
    (hu : u = 'm' ∨ u = 'h' ∨ u = 'd') :
    matchSchedule (d ++ [u]) = some (d, some u) := by
  have hundig : ∀ c, ([u] : List Char).head? = some c → c.isDigit = false := by
    intro c hc
    rw [show c = u from (Option.some.inj hc).symm]
    rcases hu with rfl | rfl | rfl <;> decide
  have hsplit : splitDigits (d ++ [u]) = (d, [u]) :=
    splitDigits_append hundig d hd
  cases d with
  | nil => exact absurd rfl hne
  | cons c cs =>
    rw [matchSchedule_eq, hsplit]
    simp only [List.isEmpty_cons, Bool.false_eq_true, if_false]
    rw [if_pos hu]

theorem matchSchedule_some_grammar {cs : List Char}
    {p : List Char × Option Char} (h : matchSchedule cs = some p) :
    GrammarMatch cs := by
  rw [matchSchedule_eq] at h
  by_cases he : (splitDigits cs).1.isEmpty = true
  · rw [if_pos he] at h
    cases h
  · rw [if_neg he] at h
    have hne : (splitDigits cs).1 ≠ [] := by
      intro hh
      rw [hh] at he
      exact he rfl
    cases h2 : (splitDigits cs).2 with
    | nil =>
      refine ⟨(splitDigits cs).1, [], ?_, hne, (splitDigits_spec cs).2,
        Or.inl rfl⟩
      rw [← h2]
      exact (splitDigits_spec cs).1
    | cons u rest =>
      cases rest with
      | nil =>
        simp only [h2] at h
        by_cases hu : u = 'm' ∨ u = 'h' ∨ u = 'd'
        · refine ⟨(splitDigits cs).1, [u], ?_, hne, (splitDigits_spec cs).2,
            ?_⟩
          · rw [← h2]
            exact (splitDigits_spec cs).1
          · rcases hu with rfl | rfl | rfl
            · exact Or.inr (Or.inl rfl)
            · exact Or.inr (Or.inr (Or.inl rfl))
            · exact Or.inr (Or.inr (Or.inr rfl))
        · rw [if_neg hu] at h
          cases h
      | cons u2 r2 =>
        simp only [h2] at h
        cases h

theorem grammar_matchSchedule {cs : List Char} (h : GrammarMatch cs) :
    (matchSchedule cs).isSome = true := by
  obtain ⟨d, u, rfl, hne, hd, hu⟩ := h
  rcases hu with rfl | rfl | rfl | rfl
  · rw [List.append_nil, matchSchedule_digits hne hd]
    rfl
  · rw [matchSchedule_unit hne hd (Or.inl rfl)]
    rfl
  · rw [matchSchedule_unit hne hd (Or.inr (Or.inl rfl))]
    rfl
  · rw [matchSchedule_unit hne hd (Or.inr (Or.inr rfl))]
    rfl

theorem parseSchedule_no_match {s : String} (h : ¬ GrammarMatch s.data) :
    parseSchedule s = 60000 := by
  cases hm : matchSchedule s.data with
  | none => rw [parseSchedule, hm]
  | some p => exact absurd (matchSchedule_some_grammar hm) h

theorem parseSchedule_digits_only {d : List Char} (hne : d ≠ [])
    (hd : d.all Char.isDigit = true) :
    parseSchedule (String.mk d) = digitsToNat d * 60000 := by
  have hm : matchSchedule (String.mk d).data = some (d, none) :=
    matchSchedule_digits hne hd
  rw [parseSchedule, hm]
  simp only [Option.getD_none]
  rw [if_pos trivial]
  omega

theorem parseSchedule_with_unit {d : List Char} (hne : d ≠ [])
    (hd : d.all Char.isDigit = true) :
    parseSchedule (String.mk (d ++ ['m'])) = digitsToNat d * 60000
    ∧ parseSchedule (String.mk (d ++ ['h'])) = digitsToNat d * 3600000
    ∧ parseSchedule (String.mk (d ++ ['d'])) = digitsToNat d * 86400000 := by
  refine ⟨?_, ?_, ?_⟩
  · rw [parseSchedule, matchSchedule_unit hne hd (Or.inl rfl)]
    simp only [Option.getD_some]
    rw [if_pos trivial]
    omega
  · rw [parseSchedule, matchSchedule_unit hne hd (Or.inr (Or.inl rfl))]
    simp only [Option.getD_some]
    rw [if_neg (by decide : ¬('h' = 'm')), if_pos trivial]
    omega
  · rw [parseSchedule, matchSchedule_unit hne hd (Or.inr (Or.inr rfl))]
    simp only [Option.getD_some]
    rw [if_neg (by decide : ¬('d' = 'm')), if_neg (by decide : ¬('d' = 'h')),
      if_pos trivial]
    omega

/-! ### Lookup after `Map.set` -/

theorem lookup_setJob_update {s : State} {i : String} {j j' : Job}
    (hl : lookup s i = some j) (hid : j'.id = j.id) :
    (setJob s.jobs j').find? (fun x => x.id = i) = some j' := by
  obtain ⟨hjmem, hjid⟩ := lookup_mem hl
  have hany : s.jobs.any (fun x => x.id = j'.id) = true :=
    any_id_of_mem hjmem hid.symm
  rw [setJob_replace hany]
  have hi : i = j'.id := (hid.trans hjid).symm
  rw [hi]
  exact find?_replace_self hany

theorem lookup_setJob_fresh {s : State} {i : String} {j' : Job}
    (hl : lookup s i = none) (hid : j'.id = i) :
    (setJob s.jobs j').find? (fun x => x.id = i) = some j' := by
  have hnotany : s.jobs.any (fun x => x.id = j'.id) = false := by
    rw [List.any_eq_false]
    intro x hx
    rw [hid]
    simpa using lookup_eq_none_iff.mp hl x hx
  rw [setJob_append hnotany, List.find?_append,
    show s.jobs.find? (fun x => x.id = i) = none from hl,
    List.find?_cons_of_pos _ (by simpa using hid)]
  rfl

/-- Under the timer invariant, at most one live timer fires for any given
job id. -/
theorem timers_per_job {s : State} (hT : TInv s) (i : String) :
    (s.liveTimers.filter (fun t => t.jobId = i)).length ≤ 1 := by
  have hnodup : s.liveTimers.Nodup := List.Nodup.of_map _ hT.2.1
  apply length_le_one_of_nodup ((List.filter_sublist _).nodup hnodup)
  intro x hx y hy
  have hx' := List.mem_filter.mp hx
  have hy' := List.mem_filter.mp hy
  have hxi : x.jobId = i := by simpa using hx'.2
  have hyi : y.jobId = i := by simpa using hy'.2
  obtain ⟨jx, hjx, hjxid, hjxh⟩ := hT.2.2.1 x hx'.1
  obtain ⟨jy, hjy, hjyid, hjyh⟩ := hT.2.2.1 y hy'.1
  have hjj : jx = jy := eq_of_nodup_key hT.1 hjx hjy
    (by rw [hjxid, hjyid, hxi, hyi])
  have hh : x.handle = y.handle :=
    Option.some.inj (hjxh.symm.trans (hjj ▸ hjyh))
  exact eq_of_nodup_key hT.2.1 hx'.1 hy'.1 hh

/-! ### Claim theorems -/

/-- C1: in every state reachable by any sequence of `addJob` (with
distinct ids), `removeJob`, `start`, `stop`, `enableJob` and `disableJob`,
a stored job holds an active timer handle if and only if the registry's
`running` flag is true and the job's `enabled` flag is true. -/
theorem C1_arm_disarm_parity {s : State} (hR : Reachable s) :
    ∀ j ∈ s.jobs, j.intervalId.isSome = (s.running && j.enabled) :=
  (reachable_Inv hR).2

/-- Witness for C1 at a concrete reachable state: one job added, then the
scheduler started, checked on the stored job. -/
theorem C1_arm_disarm_parity_witness :
    (armJob (newJob "a" "Job A" "5m" 0 0) 0 5).intervalId.isSome
      = ((start ((addJob initState "a" "Job A" "5m" 0 0).1) 5).running
          && (armJob (newJob "a" "Job A" "5m" 0 0) 0 5).enabled) :=
  C1_arm_disarm_parity
    (Reachable.runStart 5
      (Reachable.add "a" "Job A" "5m" 0 0 Reachable.init rfl))
    (armJob (newJob "a" "Job A" "5m" 0 0) 0 5) (by decide)

/-- C2: `parseSchedule` is exactly the function given by the grammar
`^(\d+)(m|h|d)?$`: non-matching strings (the empty string included) give
the 60000 ms fallback, a missing unit defaults to minutes, and a matched
value `n` gives `n`·60000 for `m`, `n`·3600000 for `h`, `n`·86400000 for
`d`; with the spec's concrete table. -/
theorem C2_parseSchedule_exact :
    (∀ s : String, ¬ GrammarMatch s.data → parseSchedule s = 60000)
    ∧ (∀ d : List Char, d ≠ [] → d.all Char.isDigit = true →
        parseSchedule (String.mk d) = digitsToNat d * 60000
        ∧ parseSchedule (String.mk (d ++ ['m'])) = digitsToNat d * 60000
        ∧ parseSchedule (String.mk (d ++ ['h'])) = digitsToNat d * 3600000
        ∧ parseSchedule (String.mk (d ++ ['d'])) = digitsToNat d * 86400000)
    ∧ parseSchedule "5m" = 300000 ∧ parseSchedule "2h" = 7200000
    ∧ parseSchedule "1d" = 86400000 ∧ parseSchedule "10" = 600000
    ∧ parseSchedule "abc" = 60000 ∧ parseSchedule "" = 60000 := by
  refine ⟨fun s h => parseSchedule_no_match h,
    fun d hne hd => ⟨parseSchedule_digits_only hne hd,
      (parseSchedule_with_unit hne hd).1,
      (parseSchedule_with_unit hne hd).2.1,
      (parseSchedule_with_unit hne hd).2.2⟩,
    ?_, ?_, ?_, ?_, ?_, ?_⟩ <;> decide

/-- Witness for C2: the fallback on a concrete non-matching string and the
digits-with-unit case on a concrete numeral. -/
theorem C2_parseSchedule_exact_witness :
    parseSchedule "7x" = 60000
    ∧ parseSchedule (String.mk ['1', '2']) = digitsToNat ['1', '2'] * 60000 := by
  constructor
  · refine C2_parseSchedule_exact.1 "7x" ?_
    intro hg
    have hs := grammar_matchSchedule hg
    rw [show matchSchedule "7x".data = none from rfl] at hs
    cases hs
  · exact (C2_parseSchedule_exact.2.1 ['1', '2'] (by decide) (by decide)).1

/-- C3: a timer firing for a stored job skips entirely (no state change,
action not invoked) when the job is disabled; otherwise the action is
invoked with the status first set to `running`, and afterwards the stored
job has `status = completed` and `lastRun = now` on success, or
`status = failed` with `lastRun` unmodified on failure — the failure is
captured (the firing function is total), never propagated. -/
theorem C3_firing_semantics {s : State} {id : String} {j : Job}
    (hl : lookup s id = some j) (outcome : Outcome) (now : Nat) :
    (j.enabled = false → fireJob s id outcome now = (s, false))
    ∧ (j.enabled = true →
        (fireJob s id outcome now).2 = true
        ∧ getJob (fireBegin s id).1 id
            = some { j with status := JobStatus.running }
        ∧ getJob (fireJob s id outcome now).1 id
            = some (match outcome with
              | Outcome.success =>
                { j with status := JobStatus.completed, lastRun := some now }
              | Outcome.failure => { j with status := JobStatus.failed })) := by
  constructor
  · intro he
    have hbegin : fireBegin s id = (s, false) := by
      simp only [fireBegin, hl, he, Bool.false_eq_true, if_false]
    simp only [fireJob, hbegin, Bool.false_eq_true, if_false]
  · intro he
    have hbegin : fireBegin s id
        = ({ s with jobs := setJob s.jobs ({ j with status := JobStatus.running }) }, true) := by
      simp only [fireBegin, hl, he, if_true]
    have hjr : lookup { s with jobs := setJob s.jobs ({ j with status := JobStatus.running }) } id
        = some ({ j with status := JobStatus.running }) :=
      lookup_setJob_update hl rfl
    refine ⟨?_, ?_, ?_⟩
    · simp only [fireJob, hbegin, if_true]
    · rw [hbegin]
      exact hjr
    · simp only [fireJob, hbegin, if_true]
      cases outcome with
      | success =>
        simp only [fireEnd, hjr]
        exact lookup_setJob_update hjr rfl
      | failure =>
        simp only [fireEnd, hjr]
        exact lookup_setJob_update hjr rfl

/-- Witness for C3: a concrete successful firing on an added job. -/
theorem C3_firing_semantics_witness :
    (fireJob (addJob initState "a" "A" "5m" 0 3).1 "a" Outcome.success 9).2
        = true
    ∧ getJob (fireJob (addJob initState "a" "A" "5m" 0 3).1 "a"
          Outcome.success 9).1 "a"
      = some { newJob "a" "A" "5m" 0 3 with
          status := JobStatus.completed, lastRun := some 9 } := by
  have h := @C3_firing_semantics (addJob initState "a" "A" "5m" 0 3).1 "a"
    (newJob "a" "A" "5m" 0 3) rfl Outcome.success 9
  exact ⟨(h.2 rfl).1, (h.2 rfl).2.2⟩

/-- C4 counterexample: `addJob` on an already-present id raises no error
and does not leave the existing entry in place — after registering id "a"
with name "A" and registering "a" again with name "B", the stored entry's
name is "B", while before the second call it was "A". -/
theorem C4_duplicate_counterexample :
    (getJob ((addJob ((addJob initState "a" "A" "5m" 7 0).1)
        "a" "B" "2h" 8 1).1) "a").map (fun j => j.name) = some "B"
    ∧ (getJob ((addJob initState "a" "A" "5m" 7 0).1) "a").map
        (fun j => j.name) = some "A" :=
  ⟨rfl, rfl⟩

/-- C4 amended: when a job with key `id` is already present, `addJob`
silently overwrites the stored entry with the newly constructed job (no
error is raised — `addJob` is total) and does not disarm the prior entry's
timer: any live timer whose handle the old entry stored stays live. -/
theorem C4_duplicate_overwrites {s : State} {id : String} {j : Job}
    (hl : lookup s id = some j) (name schedule : String)
    (action now : Nat) :
    getJob (addJob s id name schedule action now).1 id
      = some (addJob s id name schedule action now).2
    ∧ (addJob s id name schedule action now).2.name = name
    ∧ (addJob s id name schedule action now).2.schedule = schedule
    ∧ (addJob s id name schedule action now).2.action = action
    ∧ (∀ h t, j.intervalId = some h → t ∈ s.liveTimers → t.handle = h →
        t ∈ (addJob s id name schedule action now).1.liveTimers) := by
  have hjid := (lookup_mem hl).2
  cases hr : s.running with
  | false =>
    simp only [addJob, hr, Bool.false_eq_true, if_false]
    refine ⟨?_, rfl, rfl, rfl, ?_⟩
    · exact lookup_setJob_update hl hjid.symm
    · intro h t hjh ht hth
      exact ht
  | true =>
    simp only [addJob, hr, if_true]
    have h1 : lookup { s with jobs := setJob s.jobs (newJob id name schedule action now) } id
        = some (newJob id name schedule action now) :=
      lookup_setJob_update hl hjid.symm
    refine ⟨?_, rfl, rfl, rfl, ?_⟩
    · exact lookup_setJob_update h1 rfl
    · intro h t hjh ht hth
      exact List.mem_append_left _ ht

/-- Witness for C4's amended statement: overwriting an armed job "a" keeps
its leaked timer live and stores the new name. -/
theorem C4_duplicate_overwrites_witness :
    ({ handle := 0, jobId := "a", period := 300000 } : Timer)
      ∈ ((addJob (start ((addJob initState "a" "A" "5m" 0 0).1) 5)
          "a" "B" "2h" 1 6).1).liveTimers
    ∧ (getJob ((addJob (start ((addJob initState "a" "A" "5m" 0 0).1) 5)
          "a" "B" "2h" 1 6).1) "a").map (fun j2 => j2.name) = some "B" := by
  have h := @C4_duplicate_overwrites
    (start ((addJob initState "a" "A" "5m" 0 0).1) 5) "a"
    (armJob (newJob "a" "A" "5m" 0 0) 0 5) rfl "B" "2h" 1 6
  refine ⟨h.2.2.2.2 0 _ rfl ?_ rfl, ?_⟩
  · exact List.mem_singleton.mpr rfl
  · rw [h.1]
    rfl

/-- C5: for a fresh id, `addJob` stores and returns a job carrying exactly
the given arguments, with `enabled = true`, `status = pending`, `lastRun`
absent and `nextRun = now + interval(schedule)`; a repeating timer for it
is armed as a side effect exactly when the registry is running. -/
theorem C5_addJob_fresh {s : State} {id : String} (hl : lookup s id = none)
    (name schedule : String) (action now : Nat) :
    (addJob s id name schedule action now).2.id = id
    ∧ (addJob s id name schedule action now).2.name = name
    ∧ (addJob s id name schedule action now).2.schedule = schedule
    ∧ (addJob s id name schedule action now).2.action = action
    ∧ (addJob s id name schedule action now).2.enabled = true
    ∧ (addJob s id name schedule action now).2.status = JobStatus.pending
    ∧ (addJob s id name schedule action now).2.lastRun = none
    ∧ (addJob s id name schedule action now).2.nextRun
        = some (now + parseSchedule schedule)
    ∧ getJob (addJob s id name schedule action now).1 id
        = some (addJob s id name schedule action now).2
    ∧ (addJob s id name schedule action now).2.intervalId.isSome = s.running
    ∧ (s.running = true →
        ({ handle := s.nextHandle, jobId := id
           period := parseSchedule schedule } : Timer)
          ∈ (addJob s id name schedule action now).1.liveTimers)
    ∧ (s.running = false →
        (addJob s id name schedule action now).1.liveTimers
          = s.liveTimers) := by
  cases hr : s.running with
  | false =>
    simp only [addJob, hr, Bool.false_eq_true, if_false]
    refine ⟨rfl, rfl, rfl, rfl, rfl, rfl, rfl, rfl, ?_, rfl, ?_, ?_⟩
    · exact lookup_setJob_fresh hl rfl
    · intro hcontra
      cases hcontra
    · intro _
      first
      | rfl
      | trivial
  | true =>
    simp only [addJob, hr, if_true]
    have h1 : lookup { s with jobs := setJob s.jobs (newJob id name schedule action now) } id
        = some (newJob id name schedule action now) :=
      lookup_setJob_fresh hl rfl
    refine ⟨rfl, rfl, rfl, rfl, rfl, rfl, rfl, rfl, ?_, rfl, ?_, ?_⟩
    · exact lookup_setJob_update h1 rfl
    · intro _
      exact List.mem_append_right _ (List.mem_singleton.mpr rfl)
    · intro hcontra
      cases hcontra

/-- Witness for C5 on a fresh registry. -/
theorem C5_addJob_fresh_witness :
    (addJob initState "a" "A" "5m" 2 7).2.nextRun = some 300007
    ∧ getJob (addJob initState "a" "A" "5m" 2 7).1 "a"
        = some (addJob initState "a" "A" "5m" 2 7).2 := by
  have h := @C5_addJob_fresh initState "a" rfl "A" "5m" 2 7
  refine ⟨?_, h.2.2.2.2.2.2.2.2.1⟩
  rw [h.2.2.2.2.2.2.2.1]
  rfl

/-- C6: `start` is idempotent — after `start(); start()` the observable
registry state (jobs with handle presence abstracted to a Boolean, plus
the running flag) equals that after a single `start()`, because `startJob`
disarms the existing timer before re-arming; and no job ever has two
concurrent live timers. -/
theorem C6_start_idempotent {s : State} (hR : Reachable s) (n₁ n₂ : Nat) :
    obs (start (start s n₁) n₂) = obs (start s n₂)
    ∧ (∀ i : String,
        ((start (start s n₁) n₂).liveTimers.filter
          (fun t => t.jobId = i)).length ≤ 1) := by
  have hI := reachable_Inv hR
  have hnd := hI.1.1
  constructor
  · obtain ⟨ho1, hr1, hi1⟩ := start_obs hnd n₁
    have hnd1 : ((start s n₁).jobs.map (fun j => j.id)).Nodup := hi1 ▸ hnd
    obtain ⟨ho2, hr2, hi2⟩ := start_obs hnd1 n₂
    obtain ⟨ho3, hr3, hi3⟩ := start_obs hnd n₂
    have hfst : (start (start s n₁) n₂).jobs.map obsJob
        = (start s n₂).jobs.map obsJob := by
      rw [ho2, ho3, hi1]
      have e1 : (start s n₁).jobs.map
          (fun j => bigArm (s.jobs.map (fun x => x.id)) n₂ (obsJob j))
          = ((start s n₁).jobs.map obsJob).map
              (bigArm (s.jobs.map (fun x => x.id)) n₂) := by
        rw [List.map_map]
        exact List.map_congr_left (fun j _ => rfl)
      rw [e1, ho1, List.map_map]
      refine List.map_congr_left (fun j _ => ?_)
      simp only [Function.comp_apply]
      exact bigArm_bigArm _ n₁ n₂ (obsJob j)
    show ((start (start s n₁) n₂).jobs.map obsJob,
        (start (start s n₁) n₂).running)
      = ((start s n₂).jobs.map obsJob, (start s n₂).running)
    rw [hfst, hr2, hr3]
  · intro i
    have hI2 : Inv (start (start s n₁) n₂) :=
      start_Inv (start_Inv hI n₁) n₂
    exact timers_per_job hI2.1 i

/-- Witness for C6: a registry with one job, started twice. -/
theorem C6_start_idempotent_witness :
    obs (start (start ((addJob initState "a" "A" "5m" 0 0).1) 4) 5)
      = obs (start ((addJob initState "a" "A" "5m" 0 0).1) 5)
    ∧ ((start (start ((addJob initState "a" "A" "5m" 0 0).1) 4)
          5).liveTimers.filter (fun t => t.jobId = "a")).length ≤ 1 := by
  have h := C6_start_idempotent
    (Reachable.add "a" "A" "5m" 0 0 Reachable.init rfl) 4 5
  exact ⟨h.1, h.2 "a"⟩

/-- C7: `stop` sets `running = false`, clears every stored timer handle
(disarming each job's live timer), and changes no other field of any
job. -/
theorem C7_stop_frame (s : State) :
    (stop s).running = false
    ∧ (stop s).jobs = s.jobs.map (fun j => { j with intervalId := none })
    ∧ (∀ j ∈ (stop s).jobs, j.intervalId = none)
    ∧ (∀ t ∈ (stop s).liveTimers, ∀ j ∈ s.jobs, ∀ h : Nat,
        j.intervalId = some h → t.handle ≠ h)
    ∧ (stop s).jobs.map (fun j => (j.id, j.name, j.schedule, j.action,
        j.enabled, j.status, j.lastRun, j.nextRun))
      = s.jobs.map (fun j => (j.id, j.name, j.schedule, j.action,
        j.enabled, j.status, j.lastRun, j.nextRun)) := by
  refine ⟨rfl, rfl, ?_, ?_, ?_⟩
  · intro j hj
    have hj2 : j ∈ s.jobs.map (fun x => { x with intervalId := none }) := hj
    rcases List.mem_map.mp hj2 with ⟨y, -, rfl⟩
    rfl
  · intro t ht j hj h hjh
    have ht2 : t ∈ s.jobs.foldl clearStep s.liveTimers := ht
    exact (mem_foldl_clearStep ht2).2 j hj h hjh
  · show (s.jobs.map (fun x => { x with intervalId := none })).map _ = _
    rw [List.map_map]
    exact List.map_congr_left (fun y _ => rfl)

/-- Witness for C7 on a started one-job registry. -/
theorem C7_stop_frame_witness :
    (stop (start ((addJob initState "a" "A" "5m" 0 0).1) 5)).running = false
    ∧ (stop (start ((addJob initState "a" "A" "5m" 0 0).1) 5)).jobs
        = (start ((addJob initState "a" "A" "5m" 0 0).1) 5).jobs.map
            (fun j => { j with intervalId := none }) := by
  have h := C7_stop_frame (start ((addJob initState "a" "A" "5m" 0 0).1) 5)
  exact ⟨h.1, h.2.1⟩

/-- C8: for an id not present in the registry, `removeJob`, `enableJob`
and `disableJob` return `false`, `getJob` returns `none`, no error is
raised (all four are total), and the registry state is unchanged. -/
theorem C8_unknown_id {s : State} {id : String}
    (hl : lookup s id = none) (now : Nat) :
    removeJob s id = (s, false)
    ∧ enableJob s id now = (s, false)
    ∧ disableJob s id = (s, false)
    ∧ getJob s id = none := by
  refine ⟨?_, ?_, ?_, hl⟩
  · simp only [removeJob, hl]
  · simp only [enableJob, hl]
  · simp only [disableJob, hl]

/-- Witness for C8 at the empty registry. -/
theorem C8_unknown_id_witness :
    removeJob initState "z" = (initState, false)
    ∧ enableJob initState "z" 0 = (initState, false)
    ∧ disableJob initState "z" = (initState, false)
    ∧ getJob initState "z" = none :=
  @C8_unknown_id initState "z" rfl 0

/-- C9: `getAllJobs` returns a fresh snapshot of the stored jobs and the
call leaves the registry unchanged (the embedding is pure, mirroring that
the source returns a new array via `Array.from`); `getJobsByStatus s`
equals the full snapshot filtered to exactly the jobs with status `s`. -/
theorem C9_getters (s : State) :
    (getAllJobsCall s).1 = s
    ∧ getAllJobs s = s.jobs
    ∧ (∀ st : JobStatus, getJobsByStatus s st
        = (getAllJobs s).filter (fun j => j.status = st))
    ∧ (∀ st : JobStatus, ∀ j : Job,
        j ∈ getJobsByStatus s st ↔ j ∈ getAllJobs s ∧ j.status = st) := by
  refine ⟨rfl, rfl, fun st => rfl, fun st j => ?_⟩
  rw [getJobsByStatus]
  constructor
  · intro h
    have h2 := List.mem_filter.mp h
    exact ⟨h2.1, by simpa using h2.2⟩
  · intro h
    exact List.mem_filter.mpr ⟨h.1, by simpa using h.2⟩

/-- Witness for C9 on a one-job registry. -/
theorem C9_getters_witness :
    (getAllJobsCall (addJob initState "a" "A" "5m" 0 0).1).1
      = (addJob initState "a" "A" "5m" 0 0).1
    ∧ (newJob "a" "A" "5m" 0 0
          ∈ getJobsByStatus (addJob initState "a" "A" "5m" 0 0).1
              JobStatus.pending
        ↔ newJob "a" "A" "5m" 0 0
            ∈ getAllJobs (addJob initState "a" "A" "5m" 0 0).1
          ∧ (newJob "a" "A" "5m" 0 0).status = JobStatus.pending) := by
  have h := C9_getters (addJob initState "a" "A" "5m" 0 0).1
  exact ⟨h.1, h.2.2.2 JobStatus.pending (newJob "a" "A" "5m" 0 0)⟩

/-- C10: `parseSchedule` never returns a negative duration but can return
zero: each of "0", "0m", "0h", "0d" matches the grammar and yields 0 ms
(not the 60000 ms fallback), as does every all-digit string denoting zero,
so `addJob` with such a schedule sets `nextRun` to the current time. -/
theorem C10_zero_schedule :
    (∀ s : String, (0 : Int) ≤ (parseSchedule s : Int))
    ∧ matchSchedule "0".data = some (['0'], none)
    ∧ matchSchedule "0m".data = some (['0'], some 'm')
    ∧ matchSchedule "0h".data = some (['0'], some 'h')
    ∧ matchSchedule "0d".data = some (['0'], some 'd')
    ∧ parseSchedule "0" = 0 ∧ parseSchedule "0m" = 0
    ∧ parseSchedule "0h" = 0 ∧ parseSchedule "0d" = 0
    ∧ (∀ d : List Char, d ≠ [] → d.all Char.isDigit = true →
        digitsToNat d = 0 → parseSchedule (String.mk d) = 0)
    ∧ (∀ (s : State) (id name schedule : String) (action now : Nat),
        parseSchedule schedule = 0 →
        (addJob s id name schedule action now).2.nextRun = some now) := by
  refine ⟨fun s => Int.natCast_nonneg _, ?_, ?_, ?_, ?_, ?_, ?_, ?_, ?_,
    ?_, ?_⟩
  · decide
  · decide
  · decide
  · decide
  · decide
  · decide
  · decide
  · decide
  · intro d hne hd h0
    rw [parseSchedule_digits_only hne hd, h0]
  · intro s id name schedule action now h0
    cases hr : s.running with
    | false =>
      simp only [addJob, hr, Bool.false_eq_true, if_false]
      show some (calculateNextRun schedule now) = some now
      rw [calculateNextRun, h0, Nat.add_zero]
    | true =>
      simp only [addJob, hr, if_true]
      show some (now + parseSchedule schedule) = some now
      rw [h0, Nat.add_zero]

/-- Witness for C10: a zero schedule makes `nextRun` the current time. -/
theorem C10_zero_schedule_witness :
    (addJob initState "x" "X" "0" 0 42).2.nextRun = some 42
    ∧ parseSchedule (String.mk ['0', '0']) = 0 := by
  have h := C10_zero_schedule
  exact ⟨h.2.2.2.2.2.2.2.2.2.2 initState "x" "X" "0" 0 42 (by decide),
    h.2.2.2.2.2.2.2.2.2.1 ['0', '0'] (by decide) (by decide) (by decide)⟩

end AgentScheduler
